import Mathlib

/-!
Verification of the version package of the Tideland Go Library.

The package parses version strings into a structured value (major,
minor, patch, pre-release identifiers, build metadata identifiers)
and defines an ordering on such values.  This file is a shallow
embedding of that package: validID, New, Parse, the vsn methods
PreRelease, Metadata, Less and String, and the helpers less,
numericLess, splitVersionString and parseNumberString, together with
proofs about them.

Modelling conventions:
* Go strings are modelled as Lean String values.  Go compares strings
  byte-wise over UTF-8; for valid Unicode text byte-wise UTF-8 order
  coincides with code-point order, so Go string comparison is modelled
  as lexicographic comparison of the character lists by code point.
* Go int is a 64-bit signed integer, modelled as Int; the only place
  its range matters is strconv.Atoi, whose int64 range check is made
  explicit.
* The error facility of the library is reduced to the single error
  kind the version package raises, IllegalFormat.
-/

namespace GoVersion

/-- Go byte-wise string comparison, as lexicographic comparison of
code points (see the modelling conventions above). -/
def charsLt : List Char → List Char → Bool
  | [], [] => false
  | [], _ :: _ => true
  | _ :: _, [] => false
  | a :: as, b :: bs =>
    if a.toNat < b.toNat then true
    else if b.toNat < a.toNat then false
    else charsLt as bs

/-- Go string less-than a < b. -/
def strLt (a b : String) : Bool := charsLt a.data b.data

/-- Go string greater-than a > b. -/
def strGt (a b : String) : Bool := charsLt b.data a.data

/-- Go strings.Split with a one-character separator, on rune lists.
As in Go, splitting the empty string yields one empty part and the
result is never the empty list. -/
def splitCh (sep : Char) : List Char → List (List Char)
  | [] => [[]]
  | c :: cs =>
    if c = sep then [] :: splitCh sep cs
    else
      match splitCh sep cs with
      | [] => [[c]]          -- unreachable: splitCh never returns []
      | h :: t => (c :: h) :: t

/-- Go strings.SplitN with n = 2 and a one-character separator: cut at
the first occurrence of the separator, if any. -/
def splitN2 (sep : Char) : List Char → List (List Char)
  | [] => [[]]
  | c :: cs =>
    if c = sep then [[], cs]
    else
      match splitN2 sep cs with
      | [] => [[c]]          -- unreachable: splitN2 never returns []
      | h :: t => (c :: h) :: t

/-- Go strings.Join with a one-character separator, on rune lists. -/
def joinCh (sep : Char) : List (List Char) → List Char
  | [] => []
  | [x] => x
  | x :: xs => x ++ sep :: joinCh sep xs

/-- ASCII letter test of the validID switch. -/
def isLetterCh (r : Char) : Bool :=
  ('a' ≤ r && r ≤ 'z') || ('A' ≤ r && r ≤ 'Z')

/-- ASCII digit test of the validID switch. -/
def isDigitCh (r : Char) : Bool := '0' ≤ r && r ≤ '9'

/-- Decimal digit-run parser, the base-10 core of strconv.ParseUint:
fails on an empty run or any non-digit character, otherwise returns
the value of the digit string. -/
def parseDigits (cs : List Char) : Option Nat :=
  if cs.isEmpty then none
  else if cs.all isDigitCh then
    some (cs.foldl (fun a c => a * 10 + (c.toNat - 48)) 0)
  else none

/-- Largest Go int (64-bit). -/
def maxInt64 : Int := 2 ^ 63 - 1

/-- Go strconv.Atoi: an optional sign followed by a non-empty digit
run, with the int64 range check.  A range overflow yields a non-nil
error in Go, which every caller in the source treats as failure, so it
is modelled as none. -/
def goAtoi (s : String) : Option Int :=
  match s.data with
  | [] => none
  | c :: cs =>
    if c = '+' then
      match parseDigits cs with
      | none => none
      | some n => if (n : Int) ≤ maxInt64 then some (n : Int) else none
    else if c = '-' then
      match parseDigits cs with
      | none => none
      | some n => if (n : Int) ≤ 2 ^ 63 then some (-(n : Int)) else none
    else
      match parseDigits (c :: cs) with
      | none => none
      | some n => if (n : Int) ≤ maxInt64 then some (n : Int) else none

/-- The single error kind the version package raises
(ErrIllegalVersionFormat). -/
inductive VError where
  | IllegalFormat
deriving DecidableEq

/-- The struct vsn backing the Version interface. -/
structure Vsn where
  major : Int
  minor : Int
  patch : Int
  preRelease : List String
  metadata : List String
deriving DecidableEq

/-- The constant version.Metadata, the pre-release/metadata separator
token. -/
def Metadata : String := "+"

/-- One pass of the validID loop: the retained characters and the
letter/digit/hyphen flags, exactly as the Go switch sets them. -/
def scanID : List Char → List Char × Bool × Bool × Bool
  | [] => ([], false, false, false)
  | r :: rs =>
    match scanID rs with
    | (out, letter, digit, hyphen) =>
      if isLetterCh r then (r :: out, true, digit, hyphen)
      else if isDigitCh r then (r :: out, letter, true, hyphen)
      else if r = '-' then (r :: out, letter, digit, true)
      else (out, letter, digit, hyphen)

/-- Go validID: keep only ASCII letters, digits and hyphens; when
numeric is set and the identifier is all digits (at least one, no
letter, no hyphen), strip leading zeros, collapsing all zeros to
the single character zero. -/
def validID (id : String) (numeric : Bool) : String :=
  let s := scanID id.data
  let out := s.1
  let letter := s.2.1
  let digit := s.2.2.1
  let hyphen := s.2.2.2
  if numeric && digit && !letter && !hyphen then
    let stripped := out.dropWhile (fun c => c = '0')
    if stripped.isEmpty then (⟨['0']⟩ : String) else (⟨stripped⟩ : String)
  else (⟨out⟩ : String)

/-- The prmds loop of New: tokens before the first "+" are sanitized
as pre-release identifiers (numeric mode), the first "+" itself is
consumed, and every token after it is sanitized as a metadata
identifier. -/
def collectPrmds : List String → List String × List String
  | [] => ([], [])
  | prmd :: rest =>
    if prmd = Metadata then ([], rest.map (fun s => validID s false))
    else
      let pr := collectPrmds rest
      (validID prmd true :: pr.1, pr.2)

/-- Go New: clamp negative numbers to 0 and sanitize the identifier
tokens. -/
def New (major minor patch : Int) (prmds : List String) : Vsn :=
  { major := if major < 0 then 0 else major
    minor := if minor < 0 then 0 else minor
    patch := if patch < 0 then 0 else patch
    preRelease := (collectPrmds prmds).1
    metadata := (collectPrmds prmds).2 }

/-- Go vsn.PreRelease: the dot-joined pre-release identifiers. -/
def preReleaseStr (v : Vsn) : String :=
  ⟨joinCh '.' (v.preRelease.map String.data)⟩

/-- Go vsn.Metadata: the dot-joined metadata identifiers. -/
def metadataStr (v : Vsn) : String :=
  ⟨joinCh '.' (v.metadata.map String.data)⟩

/-- Go numericLess: first component is the comparison result, second
whether both sides parsed as integers. -/
def numericLess (a b : String) : Bool × Bool :=
  match goAtoi a with
  | none => (false, false)
  | some an =>
    match goAtoi b with
    | none => (false, false)
    | some bn => (decide (an < bn), true)

/-- Go less on identifier slices: walk the common positions, decide at
the first position where both sides are numeric or the strings differ,
and otherwise call the strictly longer slice less. -/
def less : List String → List String → Bool
  | x :: xs, y :: ys =>
    let nl := numericLess x y
    if nl.2 then nl.1
    else if strGt x y then false
    else if strLt x y then true
    else less xs ys
  | xs, ys => decide (xs.length > ys.length)

/-- The pre-release identifier list of a compared version as vsn.Less
re-derives it through the Version interface: the dot-joined form split
back on dots, an empty joined form giving the empty list. -/
def resplitPre (cv : Vsn) : List String :=
  if (preReleaseStr cv).length > 0 then
    (splitCh '.' (preReleaseStr cv).data).map (fun cs => (⟨cs⟩ : String))
  else []

/-- Go vsn.Less: compare major, minor, patch, then the pre-release
identifiers, the compared version being accessed through the Version
interface. -/
def Less (v cv : Vsn) : Bool :=
  if v.major < cv.major then true
  else if v.major > cv.major then false
  else if v.minor < cv.minor then true
  else if v.minor > cv.minor then false
  else if v.patch < cv.patch then true
  else if v.patch > cv.patch then false
  else less v.preRelease (resplitPre cv)

/-- Decimal rendering of a Go int (fmt %d). -/
def intChars (i : Int) : List Char :=
  if i < 0 then '-' :: (Nat.repr (-i).toNat).data
  else (Nat.repr i.toNat).data

/-- The numeric part of the rendered string: the decimal major, minor
and patch numbers joined by dots (fmt "%d.%d.%d"). -/
def numChars (v : Vsn) : List Char :=
  intChars v.major ++ ('.' :: (intChars v.minor ++ ('.' :: intChars v.patch)))

/-- Go vsn.String: major.minor.patch, then a hyphen and the joined
pre-release when the pre-release list is non-empty, then a plus and
the joined metadata when the metadata list is non-empty. -/
def vString (v : Vsn) : String :=
  let vs := numChars v
  let vs := if v.preRelease.length > 0 then vs ++ ('-' :: (preReleaseStr v).data) else vs
  let vs := if v.metadata.length > 0 then vs ++ (Metadata.data ++ (metadataStr v).data) else vs
  (⟨vs⟩ : String)

/-- Go splitVersionString: cut at the first "+", then cut the front
part at the first "-".  SplitN always returns one or two parts, so the
error branch of the source is unreachable but kept. -/
def splitVersionString (vsnstr : String) : Except VError (List String) :=
  match splitN2 '+' vsnstr.data with
  | [np] =>
    match splitN2 '-' np with
    | [n] => .ok [⟨n⟩, "", ""]
    | [n, p] => .ok [⟨n⟩, ⟨p⟩, ""]
    | _ => .error .IllegalFormat
  | [np, m] =>
    match splitN2 '-' np with
    | [n] => .ok [⟨n⟩, "", ⟨m⟩]
    | [n, p] => .ok [⟨n⟩, ⟨p⟩, ⟨m⟩]
    | _ => .error .IllegalFormat
  | _ => .error .IllegalFormat

/-- The assignment loop of parseNumberString, overwriting the defaults
left to right by the parsed components, failing on a component that
does not parse or parses negative. -/
def fillNums : List String → List Int → Except VError (List Int)
  | [], ds => .ok ds
  | s :: rest, _ :: ds =>
    match goAtoi s with
    | none => .error .IllegalFormat
    | some num =>
      if num < 0 then .error .IllegalFormat
      else
        match fillNums rest ds with
        | .error e => .error e
        | .ok tail => .ok (num :: tail)
  | _ :: _, [] => .error .IllegalFormat   -- unreachable: at most three components

/-- Go parseNumberString: split on ".", admit one to three components,
and overwrite the default triple 1, 0, 0 left to right. -/
def parseNumberString (nstr : String) : Except VError (List Int) :=
  let nstrs := (splitCh '.' nstr.data).map (fun cs => (⟨cs⟩ : String))
  if nstrs.length < 1 || nstrs.length > 3 then .error .IllegalFormat
  else fillNums nstrs [1, 0, 0]

/-- Go Parse: split the string into the three segments, parse the
numeric one, split the other two on dots, and hand everything to New
with the "+" marker between the two token groups. -/
def Parse (vsnstr : String) : Except VError Vsn :=
  match splitVersionString vsnstr with
  | .error e => .error e
  | .ok npmstrs =>
    match npmstrs with
    | [n, p, m] =>
      match parseNumberString n with
      | .error e => .error e
      | .ok nums =>
        let prmds : List String :=
          if p ≠ "" then (splitCh '.' p.data).map (fun cs => (⟨cs⟩ : String)) else []
        let prmds :=
          if m ≠ "" then
            prmds ++ Metadata :: (splitCh '.' m.data).map (fun cs => (⟨cs⟩ : String))
          else prmds
        match nums with
        | [ma, mi, pa] => .ok (New ma mi pa prmds)
        | _ => .error .IllegalFormat   -- unreachable: nums always has three entries
    | _ => .error .IllegalFormat       -- unreachable: always three segments

/-- The character alphabet retained by validID: ASCII letters, digits
and hyphens. -/
def keepCh (r : Char) : Bool := isLetterCh r || isDigitCh r || r == '-'

/-- An identifier drawn entirely from the retained alphabet. -/
def alphaOnly (s : String) : Bool := s.data.all keepCh

/-- Modelled from the spec, section 4.1: the sanitizer described as a
character filter over the input, followed, when numericMode is set and
the filtered result consists of at least one digit and no letters or
hyphens, by stripping leading zeros with an all-zero result collapsing
to the single character zero.  Stated for comparison with validID. -/
def validIDSpec (id : String) (numericMode : Bool) : String :=
  let f := id.data.filter keepCh
  if numericMode && !f.isEmpty && f.all isDigitCh then
    let stripped := f.dropWhile (fun c => c = '0')
    if stripped.isEmpty then (⟨['0']⟩ : String) else (⟨stripped⟩ : String)
  else (⟨f⟩ : String)

/-- Modelled from the spec, section 4.2 step 4: the position-wise
pre-release comparison in which two exactly equal identifiers always
continue the walk to the next position, and a definitive result arises
only at a position whose identifiers differ.  Stated for comparison
with less. -/
def specLess : List String → List String → Bool
  | x :: xs, y :: ys =>
    if x = y then specLess xs ys
    else
      match goAtoi x, goAtoi y with
      | some a, some b => decide (a < b)
      | _, _ => strLt x y
  | xs, ys => decide (xs.length > ys.length)

/-- The numeric segment of a raw version string as the claims describe
it: the part before the first "-" of the part before the first "+". -/
def numericSegment (s : String) : List Char :=
  (splitN2 '-' ((splitN2 '+' s.data).headD [])).headD []

/-- The claimed characterization of the only Parse error path: the
numeric segment splits on "." into more than three components, or some
component fails integer parsing, or some component parses negative. -/
def parseErrCond (s : String) : Prop :=
  3 < (splitCh '.' (numericSegment s)).length ∨
    ∃ cs ∈ splitCh '.' (numericSegment s),
      goAtoi ⟨cs⟩ = none ∨ ∃ n, goAtoi ⟨cs⟩ = some n ∧ n < 0

/-!
Basic lemmas about the character-level string order.
-/

lemma charsLt_irrefl (cs : List Char) : charsLt cs cs = false := by
  induction cs with
  | nil => rfl
  | cons c cs ih => simp [charsLt, ih]

lemma charsLt_trans {a b c : List Char} (h1 : charsLt a b = true)
    (h2 : charsLt b c = true) : charsLt a c = true := by
  induction a generalizing b c with
  | nil =>
    cases b with
    | nil => simp [charsLt] at h1
    | cons y ys =>
      cases c with
      | nil => simp [charsLt] at h2
      | cons z zs => simp [charsLt]
  | cons x xs ih =>
    cases b with
    | nil => simp [charsLt] at h1
    | cons y ys =>
      cases c with
      | nil => simp [charsLt] at h2
      | cons z zs =>
        simp only [charsLt] at h1 h2 ⊢
        by_cases hxy : x.toNat < y.toNat
        · by_cases hyz : y.toNat < z.toNat
          · have hxz : x.toNat < z.toNat := by omega
            simp [hxz]
          · by_cases hzy : z.toNat < y.toNat
            · rw [if_neg hyz, if_pos hzy] at h2
              exact absurd h2 (by simp)
            · have hxz : x.toNat < z.toNat := by omega
              simp [hxz]
        · by_cases hyx : y.toNat < x.toNat
          · rw [if_neg hxy, if_pos hyx] at h1
            exact absurd h1 (by simp)
          · rw [if_neg hxy, if_neg hyx] at h1
            by_cases hyz : y.toNat < z.toNat
            · have hxz : x.toNat < z.toNat := by omega
              simp [hxz]
            · by_cases hzy : z.toNat < y.toNat
              · rw [if_neg hyz, if_pos hzy] at h2
                exact absurd h2 (by simp)
              · rw [if_neg hyz, if_neg hzy] at h2
                have hxz : ¬ x.toNat < z.toNat := by omega
                have hzx : ¬ z.toNat < x.toNat := by omega
                rw [if_neg hxz, if_neg hzx]
                exact ih h1 h2

lemma charsLt_eq_of_incomp {a b : List Char} (h1 : charsLt a b = false)
    (h2 : charsLt b a = false) : a = b := by
  induction a generalizing b with
  | nil =>
    cases b with
    | nil => rfl
    | cons y ys => simp [charsLt] at h1
  | cons x xs ih =>
    cases b with
    | nil => simp [charsLt] at h2
    | cons y ys =>
      simp only [charsLt] at h1 h2
      by_cases hxy : x.toNat < y.toNat
      · rw [if_pos hxy] at h1
        exact absurd h1 (by simp)
      · by_cases hyx : y.toNat < x.toNat
        · rw [if_pos hyx] at h2
          exact absurd h2 (by simp)
        · rw [if_neg hxy, if_neg hyx] at h1
          rw [if_neg hyx, if_neg hxy] at h2
          have hx : x = y := Char.ext (UInt32.ext (show x.toNat = y.toNat by omega))
          rw [hx, ih h1 h2]

lemma strLt_irrefl (x : String) : strLt x x = false := charsLt_irrefl x.data

lemma strGt_irrefl (x : String) : strGt x x = false := charsLt_irrefl x.data

lemma str_eq_of_incomp {x y : String} (h1 : strGt x y = false)
    (h2 : strLt x y = false) : x = y := by
  have : x.data = y.data := charsLt_eq_of_incomp h2 h1
  have hx : x = ⟨x.data⟩ := rfl
  have hy : y = ⟨y.data⟩ := rfl
  rw [hx, hy, this]

/-!
Basic lemmas about splitting and joining.
-/

lemma splitCh_ne_nil (sep : Char) (cs : List Char) : splitCh sep cs ≠ [] := by
  induction cs with
  | nil => simp [splitCh]
  | cons c cs ih =>
    simp only [splitCh]
    by_cases h : c = sep
    · simp [h]
    · simp only [if_neg h]
      cases hs : splitCh sep cs with
      | nil => simp
      | cons hd tl => simp

lemma splitCh_sepfree {sep : Char} {cs : List Char}
    (h : ∀ c ∈ cs, c ≠ sep) : splitCh sep cs = [cs] := by
  induction cs with
  | nil => rfl
  | cons c cs ih =>
    have hc : ¬ c = sep := h c (by simp)
    have ih' := ih (fun d hd => h d (by simp [hd]))
    simp [splitCh, hc, ih']

lemma splitCh_append_of_sepfree {sep : Char} {x r : List Char}
    (hx : ∀ c ∈ x, c ≠ sep) {h : List Char} {t : List (List Char)}
    (hr : splitCh sep r = h :: t) :
    splitCh sep (x ++ r) = (x ++ h) :: t := by
  induction x with
  | nil => simpa using hr
  | cons c cs ih =>
    have hc : ¬ c = sep := hx c (by simp)
    have ih' := ih (fun d hd => hx d (by simp [hd]))
    simp [splitCh, hc, ih']

lemma splitCh_join {sep : Char} {l : List (List Char)} (hne : l ≠ [])
    (h : ∀ x ∈ l, ∀ c ∈ x, c ≠ sep) :
    splitCh sep (joinCh sep l) = l := by
  induction l with
  | nil => exact absurd rfl hne
  | cons x xs ih =>
    cases xs with
    | nil =>
      simp only [joinCh]
      exact splitCh_sepfree (h x (by simp))
    | cons y ys =>
      have hx : ∀ c ∈ x, c ≠ sep := h x (by simp)
      have ih' : splitCh sep (joinCh sep (y :: ys)) = y :: ys :=
        ih (by simp) (fun z hz c hc => h z (by simp [hz]) c hc)
      have hstep : splitCh sep (sep :: joinCh sep (y :: ys)) = [] :: y :: ys := by
        simp [splitCh, ih']
      have := splitCh_append_of_sepfree hx hstep
      simpa [joinCh] using this

lemma splitN2_sepfree {sep : Char} {cs : List Char}
    (h : ∀ c ∈ cs, c ≠ sep) : splitN2 sep cs = [cs] := by
  induction cs with
  | nil => rfl
  | cons c cs ih =>
    have hc : ¬ c = sep := h c (by simp)
    have ih' := ih (fun d hd => h d (by simp [hd]))
    simp [splitN2, hc, ih']

lemma splitN2_first {sep : Char} {x r : List Char}
    (hx : ∀ c ∈ x, c ≠ sep) :
    splitN2 sep (x ++ sep :: r) = [x, r] := by
  induction x with
  | nil => simp [splitN2]
  | cons c cs ih =>
    have hc : ¬ c = sep := hx c (by simp)
    have ih' := ih (fun d hd => hx d (by simp [hd]))
    simp [splitN2, hc, ih']

lemma splitN2_shape (sep : Char) (cs : List Char) :
    (∃ a, splitN2 sep cs = [a]) ∨ ∃ a b, splitN2 sep cs = [a, b] := by
  induction cs with
  | nil => exact Or.inl ⟨[], rfl⟩
  | cons c cs ih =>
    by_cases hc : c = sep
    · exact Or.inr ⟨[], cs, by simp [splitN2, hc]⟩
    · rcases ih with ⟨a, ha⟩ | ⟨a, b, hab⟩
      · exact Or.inl ⟨c :: a, by simp [splitN2, hc, ha]⟩
      · exact Or.inr ⟨c :: a, b, by simp [splitN2, hc, hab]⟩

/-!
Character-class facts and the characterization of scanID and validID.
-/

lemma not_digit_of_letter {r : Char} (h : isLetterCh r = true) :
    isDigitCh r = false := by
  by_contra hd
  rw [Bool.not_eq_false] at hd
  simp only [isLetterCh, Bool.or_eq_true, Bool.and_eq_true, decide_eq_true_eq] at h
  simp only [isDigitCh, Bool.and_eq_true, decide_eq_true_eq] at hd
  rcases h with ⟨h1, _⟩ | ⟨h1, _⟩
  · exact absurd (le_trans h1 hd.2) (by decide)
  · exact absurd (le_trans h1 hd.2) (by decide)

lemma letter_ne_hyphen {r : Char} (h : isLetterCh r = true) : ¬ r = '-' := by
  intro he
  rw [he] at h
  exact absurd h (by decide)

lemma digit_ne_hyphen {r : Char} (h : isDigitCh r = true) : ¬ r = '-' := by
  intro he
  rw [he] at h
  exact absurd h (by decide)

lemma scanID_eq (cs : List Char) :
    scanID cs =
      (cs.filter keepCh, cs.any isLetterCh, cs.any isDigitCh,
        cs.any (fun c => c == '-')) := by
  induction cs with
  | nil => rfl
  | cons r rs ih =>
    simp only [scanID, ih]
    by_cases hl : isLetterCh r = true
    · have hd := not_digit_of_letter hl
      have hh : (r == '-') = false := by
        simpa using letter_ne_hyphen hl
      simp [keepCh, hl, hd, hh]
    · rw [Bool.not_eq_true] at hl
      by_cases hd : isDigitCh r = true
      · have hh : (r == '-') = false := by
          simpa using digit_ne_hyphen hd
        simp [keepCh, hl, hd, hh]
      · rw [Bool.not_eq_true] at hd
        by_cases hh : r = '-'
        · subst hh
          simp [keepCh, hl, hd]
        · have hh' : (r == '-') = false := by simpa using hh
          simp [keepCh, hl, hd, hh, hh']

lemma any_filter_keep {l : List Char} {p : Char → Bool}
    (hp : ∀ c, p c = true → keepCh c = true) :
    (l.filter keepCh).any p = l.any p := by
  induction l with
  | nil => rfl
  | cons c cs ih =>
    by_cases hc : keepCh c = true
    · simp [List.filter_cons, hc, ih]
    · rw [Bool.not_eq_true] at hc
      have hpc : p c = false := by
        by_contra hp'
        rw [Bool.not_eq_false] at hp'
        rw [hp c hp'] at hc
        cases hc
      simp [List.filter_cons, hc, hpc, ih]

lemma alpha_all_digit_iff {f : List Char} (hf : ∀ c ∈ f, keepCh c = true) :
    (f.any isDigitCh = true ∧ f.any isLetterCh = false ∧
        f.any (fun c => c == '-') = false) ↔
      (f.isEmpty = false ∧ f.all isDigitCh = true) := by
  constructor
  · rintro ⟨hd, hl, hh⟩
    refine ⟨?_, ?_⟩
    · obtain ⟨c, hc, _⟩ := List.any_eq_true.mp hd
      cases f with
      | nil => cases hc
      | cons a as => rfl
    · rw [List.all_eq_true]
      intro d hd'
      have hk := hf d hd'
      simp only [keepCh, Bool.or_eq_true] at hk
      rcases hk with (hlet | hdig) | hhy
      · have : f.any isLetterCh = true := List.any_eq_true.mpr ⟨d, hd', hlet⟩
        rw [this] at hl
        cases hl
      · exact hdig
      · have : f.any (fun c => c == '-') = true := List.any_eq_true.mpr ⟨d, hd', hhy⟩
        rw [this] at hh
        cases hh
  · rintro ⟨hne, hall⟩
    have hall' := List.all_eq_true.mp hall
    cases f with
    | nil => cases hne
    | cons a as =>
      refine ⟨List.any_eq_true.mpr ⟨a, by simp, hall' a (by simp)⟩, ?_, ?_⟩
      · rw [Bool.eq_false_iff]
        intro hany
        obtain ⟨d, hd', hdl⟩ := List.any_eq_true.mp hany
        have hnd := not_digit_of_letter hdl
        rw [hall' d hd'] at hnd
        cases hnd
      · rw [Bool.eq_false_iff]
        intro hany
        obtain ⟨d, hd', hdh⟩ := List.any_eq_true.mp hany
        exact digit_ne_hyphen (hall' d hd') (by simpa using hdh)

lemma alpha_all_digit_bool {f : List Char} (hf : ∀ c ∈ f, keepCh c = true) :
    (f.any isDigitCh && !f.any isLetterCh && !f.any (fun c => c == '-')) =
      (!f.isEmpty && f.all isDigitCh) := by
  by_cases hA : f.any isDigitCh = true ∧ f.any isLetterCh = false ∧
      f.any (fun c => c == '-') = false
  · have hB := (alpha_all_digit_iff hf).mp hA
    rw [hA.1, hA.2.1, hA.2.2, hB.1, hB.2]
    rfl
  · have hB : ¬ (f.isEmpty = false ∧ f.all isDigitCh = true) :=
      fun h => hA ((alpha_all_digit_iff hf).mpr h)
    have hA' : (f.any isDigitCh && !f.any isLetterCh &&
        !f.any (fun c => c == '-')) = false := by
      by_contra hx
      rw [Bool.not_eq_false] at hx
      simp only [Bool.and_eq_true, Bool.not_eq_true'] at hx
      exact hA ⟨hx.1.1, hx.1.2, hx.2⟩
    have hB' : (!f.isEmpty && f.all isDigitCh) = false := by
      by_contra hx
      rw [Bool.not_eq_false] at hx
      simp only [Bool.and_eq_true, Bool.not_eq_true'] at hx
      exact hB ⟨hx.1, hx.2⟩
    rw [hA', hB']

lemma validID_eq_spec (id : String) (numeric : Bool) :
    validID id numeric = validIDSpec id numeric := by
  have hf : ∀ c ∈ id.data.filter keepCh, keepCh c = true :=
    fun c hc => (List.mem_filter.mp hc).2
  have e1 := @any_filter_keep id.data isDigitCh
    (fun c h => by simp [keepCh, h])
  have e2 := @any_filter_keep id.data isLetterCh
    (fun c h => by simp [keepCh, h])
  have e3 := @any_filter_keep id.data (fun c => c == '-')
    (fun c h => by simp [keepCh, h])
  simp only [validID, scanID_eq, validIDSpec]
  rw [← e1, ← e2, ← e3]
  cases numeric with
  | false => rfl
  | true =>
    simp only [Bool.true_and]
    rw [alpha_all_digit_bool hf]

lemma mem_validID_keep {s : String} {b : Bool} {c : Char}
    (hc : c ∈ (validID s b).data) : keepCh c = true := by
  rw [validID_eq_spec, validIDSpec] at hc
  by_cases hcond : (b && !(s.data.filter keepCh).isEmpty &&
      (s.data.filter keepCh).all isDigitCh) = true
  · rw [if_pos hcond] at hc
    by_cases hstr : ((s.data.filter keepCh).dropWhile (fun c => c = '0')).isEmpty = true
    · rw [if_pos hstr] at hc
      simp only [List.mem_singleton] at hc
      subst hc
      decide
    · rw [if_neg hstr] at hc
      have hsub : c ∈ s.data.filter keepCh :=
        (List.dropWhile_sublist _).subset hc
      exact (List.mem_filter.mp hsub).2
  · rw [if_neg hcond] at hc
    exact (List.mem_filter.mp hc).2

lemma keep_ne_dot {c : Char} (h : keepCh c = true) : ¬ c = '.' := by
  intro he
  rw [he] at h
  exact absurd h (by decide)

lemma keep_ne_plus {c : Char} (h : keepCh c = true) : ¬ c = '+' := by
  intro he
  rw [he] at h
  exact absurd h (by decide)

lemma dropWhile_idem {p : Char → Bool} (l : List Char) :
    (l.dropWhile p).dropWhile p = l.dropWhile p := by
  induction l with
  | nil => rfl
  | cons c cs ih =>
    by_cases hc : p c = true
    · simp [List.dropWhile_cons, hc, ih]
    · rw [Bool.not_eq_true] at hc
      simp [List.dropWhile_cons, hc]

lemma validIDSpec_idem (s : String) (b : Bool) :
    validIDSpec (validIDSpec s b) b = validIDSpec s b := by
  have hfil : ∀ l : List Char, (∀ c ∈ l, keepCh c = true) →
      l.filter keepCh = l := fun l h => List.filter_eq_self.mpr h
  by_cases hcond : (b && !(s.data.filter keepCh).isEmpty &&
      (s.data.filter keepCh).all isDigitCh) = true
  · by_cases hstr : ((s.data.filter keepCh).dropWhile (fun c => c = '0')).isEmpty = true
    · have heq : validIDSpec s b = ⟨['0']⟩ := by
        simp only [validIDSpec]
        rw [if_pos hcond, if_pos hstr]
      rw [heq]
      cases b <;> rfl
    · have heq : validIDSpec s b =
          ⟨(s.data.filter keepCh).dropWhile (fun c => c = '0')⟩ := by
        simp only [validIDSpec]
        rw [if_pos hcond, if_neg hstr]
      have hb : b = true := by
        cases b with
        | false => simp at hcond
        | true => rfl
      subst hb
      simp only [Bool.true_and, Bool.and_eq_true] at hcond
      rw [heq]
      simp only [validIDSpec]
      have hsubs : ∀ c ∈ (s.data.filter keepCh).dropWhile (fun c => c = '0'),
          c ∈ s.data.filter keepCh := fun c hc => (List.dropWhile_sublist _).subset hc
      rw [hfil _ (fun c hc => (List.mem_filter.mp (hsubs c hc)).2)]
      have hall2 : ((s.data.filter keepCh).dropWhile (fun c => c = '0')).all
          isDigitCh = true := by
        rw [List.all_eq_true]
        intro c hc
        exact List.all_eq_true.mp hcond.2 c (hsubs c hc)
      have hne2 : (!((s.data.filter keepCh).dropWhile (fun c => c = '0')).isEmpty) = true := by
        rw [Bool.not_eq_true']
        simpa using hstr
      rw [if_pos (by simp [hne2, hall2] : (true &&
        !((s.data.filter keepCh).dropWhile (fun c => c = '0')).isEmpty &&
        ((s.data.filter keepCh).dropWhile (fun c => c = '0')).all isDigitCh) = true)]
      rw [dropWhile_idem]
      rw [if_neg hstr]
  · have heq : validIDSpec s b = ⟨s.data.filter keepCh⟩ := by
      simp only [validIDSpec]
      rw [if_neg hcond]
    rw [heq]
    simp only [validIDSpec]
    rw [hfil _ (fun c hc => (List.mem_filter.mp hc).2), if_neg hcond]

lemma validID_idem (s : String) (b : Bool) :
    validID (validID s b) b = validID s b := by
  rw [validID_eq_spec s b, validID_eq_spec, validIDSpec_idem]

/-!
Decimal rendering and its inverse through goAtoi.
-/

lemma digitChar_toNat {n : Nat} (h : n < 10) : (Nat.digitChar n).toNat = n + 48 := by
  interval_cases n <;> decide

lemma digitChar_isDigit {n : Nat} (h : n < 10) : isDigitCh (Nat.digitChar n) = true := by
  interval_cases n <;> decide

lemma toDigitsCore_spec : ∀ (fuel n : Nat) (acc : List Char), n < fuel →
    ∃ ds, Nat.toDigitsCore 10 fuel n acc = ds ++ acc ∧ ds ≠ [] ∧
      ds.all isDigitCh = true ∧
      ∀ a : Nat, ds.foldl (fun a c => a * 10 + (c.toNat - 48)) a =
        a * 10 ^ ds.length + n := by
  intro fuel
  induction fuel with
  | zero => intro n acc h; omega
  | succ fuel ih =>
    intro n acc h
    by_cases hn : n / 10 = 0
    · refine ⟨[Nat.digitChar (n % 10)], ?_, by simp, ?_, ?_⟩
      · simp [Nat.toDigitsCore, hn]
      · simp [digitChar_isDigit (Nat.mod_lt n (by norm_num))]
      · intro a
        have hmod : n % 10 = n := Nat.mod_eq_of_lt (by omega)
        simp only [List.foldl_cons, List.foldl_nil, List.length_singleton, pow_one]
        rw [digitChar_toNat (by omega), hmod]
        omega
    · have hlt : n / 10 < fuel := by omega
      obtain ⟨ds, hds, hne, hdig, hfold⟩ := ih (n / 10) (Nat.digitChar (n % 10) :: acc) hlt
      refine ⟨ds ++ [Nat.digitChar (n % 10)], ?_, by simp, ?_, ?_⟩
      · simp only [Nat.toDigitsCore, hn]
        rw [if_neg not_false, hds, List.append_assoc, List.singleton_append]
      · simp [List.all_append, hdig, digitChar_isDigit (Nat.mod_lt n (by omega))]
      · intro a
        rw [List.foldl_append, hfold a]
        simp only [List.foldl_cons, List.foldl_nil, List.length_append,
          List.length_singleton]
        rw [digitChar_toNat (by omega)]
        calc (a * 10 ^ ds.length + n / 10) * 10 + (n % 10 + 48 - 48)
            = a * (10 ^ ds.length * 10) + (n / 10 * 10 + n % 10) := by ring_nf; omega
          _ = a * 10 ^ (ds.length + 1) + n := by
              rw [← pow_succ]
              congr 1
              omega

lemma natRepr_spec (n : Nat) :
    (Nat.repr n).data ≠ [] ∧ (Nat.repr n).data.all isDigitCh = true ∧
      (Nat.repr n).data.foldl (fun a c => a * 10 + (c.toNat - 48)) 0 = n := by
  obtain ⟨ds, hds, hne, hdig, hfold⟩ := toDigitsCore_spec (n + 1) n [] (by omega)
  have hdata : (Nat.repr n).data = ds := by
    show (Nat.toDigits 10 n).asString.data = ds
    rw [Nat.toDigits, hds, List.append_nil]
    rfl
  rw [hdata]
  refine ⟨hne, hdig, ?_⟩
  have := hfold 0
  simpa using this

lemma parseDigits_natRepr (n : Nat) : parseDigits (Nat.repr n).data = some n := by
  obtain ⟨hne, hdig, hfold⟩ := natRepr_spec n
  rw [parseDigits]
  rw [if_neg (by simpa [List.isEmpty_iff] using hne)]
  rw [if_pos hdig, hfold]

lemma goAtoi_natRepr {n : Nat} (h : (n : Int) ≤ maxInt64) :
    goAtoi (Nat.repr n) = some (n : Int) := by
  obtain ⟨hne, hdig, _⟩ := natRepr_spec n
  have hpd : parseDigits (Nat.repr n).data = some n := parseDigits_natRepr n
  cases hdata : (Nat.repr n).data with
  | nil => exact absurd hdata hne
  | cons c cs =>
    have hc : isDigitCh c = true :=
      List.all_eq_true.mp hdig c (by rw [hdata]; exact List.mem_cons_self c cs)
    have hplus : ¬ c = '+' := fun he => absurd (he ▸ hc) (by decide)
    have hminus : ¬ c = '-' := fun he => absurd (he ▸ hc) (by decide)
    have hpd' : parseDigits (c :: cs) = some n := by rw [← hdata]; exact hpd
    simp only [goAtoi, hdata]
    rw [if_neg hplus, if_neg hminus]
    simp only [hpd']
    rw [if_pos h]

lemma intChars_nonneg {i : Int} (h0 : 0 ≤ i) :
    intChars i = (Nat.repr i.toNat).data := by
  rw [intChars, if_neg (by omega)]

lemma goAtoi_intChars {i : Int} (h0 : 0 ≤ i) (h : i ≤ maxInt64) :
    goAtoi ⟨intChars i⟩ = some i := by
  have hs : (⟨intChars i⟩ : String) = Nat.repr i.toNat := by
    rw [intChars_nonneg h0]
  rw [hs]
  have hr := @goAtoi_natRepr i.toNat
    (by rw [Int.toNat_of_nonneg h0]; exact h)
  rw [hr, Int.toNat_of_nonneg h0]

lemma intChars_digits {i : Int} (h0 : 0 ≤ i) :
    (intChars i).all isDigitCh = true := by
  rw [intChars_nonneg h0]
  exact (natRepr_spec i.toNat).2.1

lemma digit_ne_dot {c : Char} (h : isDigitCh c = true) : ¬ c = '.' :=
  fun he => absurd (he ▸ h) (by decide)

lemma digit_ne_plus {c : Char} (h : isDigitCh c = true) : ¬ c = '+' :=
  fun he => absurd (he ▸ h) (by decide)

/-!
Lemmas about the slice comparison less.
-/

lemma less_cons (x y : String) (xs ys : List String) :
    less (x :: xs) (y :: ys) =
      if (numericLess x y).2 then (numericLess x y).1
      else if strGt x y then false
      else if strLt x y then true
      else less xs ys := rfl

lemma less_cons_nonnum {x : String} (y : String) (xs ys : List String)
    (hx : goAtoi x = none) :
    less (x :: xs) (y :: ys) =
      if strGt x y then false
      else if strLt x y then true
      else less xs ys := by
  rw [less_cons]
  have hnl : numericLess x y = (false, false) := by rw [numericLess, hx]
  rw [hnl]
  simp

lemma numericLess_fst_self (x : String) : (numericLess x x).1 = false := by
  rw [numericLess]
  cases hga : goAtoi x with
  | none => simp
  | some a => simp

lemma less_self (xs : List String) : less xs xs = false := by
  induction xs with
  | nil => rfl
  | cons x xs ih =>
    rw [less_cons]
    cases hok : (numericLess x x).2 with
    | true => simp [hok, numericLess_fst_self]
    | false => simp [hok, strGt_irrefl, strLt_irrefl, ih]

lemma less_nil_right (xs : List String) : less xs [] = decide (0 < xs.length) := by
  cases xs <;> rfl

lemma less_nil_left (ys : List String) : less [] ys = false := by
  cases ys <;> rfl

lemma less_self_append (xs t : List String)
    (hnum : ∀ x ∈ xs, goAtoi x = none) :
    less (xs ++ t) xs = decide (0 < t.length) ∧ less xs (xs ++ t) = false := by
  induction xs with
  | nil =>
    constructor
    · rw [List.nil_append, less_nil_right]
    · rw [List.nil_append, less_nil_left]
  | cons x xs ih =>
    have hx : goAtoi x = none := hnum x (by simp)
    obtain ⟨ih1, ih2⟩ := ih (fun y hy => hnum y (by simp [hy]))
    constructor
    · rw [List.cons_append, less_cons_nonnum _ _ _ hx]
      rw [strGt_irrefl, strLt_irrefl]
      simpa using ih1
    · rw [List.cons_append, less_cons_nonnum _ _ _ hx]
      rw [strGt_irrefl, strLt_irrefl]
      simpa using ih2

lemma less_trans_nonnum : ∀ (as bs cs : List String),
    (∀ x ∈ as, goAtoi x = none) → (∀ x ∈ bs, goAtoi x = none) →
    less as bs = true → less bs cs = true → less as cs = true := by
  intro as
  induction as with
  | nil =>
    intro bs cs _ _ h1 _
    rw [less_nil_left] at h1
    cases h1
  | cons a as' ih =>
    intro bs cs ha hb h1 h2
    cases bs with
    | nil =>
      rw [less_nil_left] at h2
      cases h2
    | cons b bs' =>
      cases cs with
      | nil =>
        rw [less_nil_right]
        simp
      | cons c cs' =>
        have hga : goAtoi a = none := ha a (by simp)
        have hgb : goAtoi b = none := hb b (by simp)
        rw [less_cons_nonnum _ _ _ hga] at h1
        rw [less_cons_nonnum _ _ _ hgb] at h2
        rw [less_cons_nonnum _ _ _ hga]
        by_cases habg : strGt a b = true
        · rw [if_pos habg] at h1
          cases h1
        · rw [if_neg habg] at h1
          by_cases hbcg : strGt b c = true
          · rw [if_pos hbcg] at h2
            cases h2
          · rw [if_neg hbcg] at h2
            by_cases habl : strLt a b = true
            · by_cases hbcl : strLt b c = true
              · have hacl : strLt a c = true := charsLt_trans habl hbcl
                have hacg : strGt a c = false := by
                  by_contra hg
                  rw [Bool.not_eq_false] at hg
                  have h1' : charsLt a.data c.data = true := hacl
                  have h2' : charsLt c.data a.data = true := hg
                  have h3' := charsLt_trans h1' h2'
                  rw [charsLt_irrefl] at h3'
                  cases h3'
                rw [hacg]
                simp [hacl]
              · have hbc : b = c :=
                  str_eq_of_incomp (by simpa using hbcg) (by simpa using hbcl)
                subst hbc
                rw [if_neg (by simp [habg] : ¬ strGt a b = true)]
                simp [habl]
            · have hab : a = b :=
                str_eq_of_incomp (by simpa using habg) (by simpa using habl)
              subst hab
              rw [if_neg habl] at h1
              by_cases hacl : strLt a c = true
              · rw [if_neg hbcg]
                simp [hacl]
              · have hac : a = c :=
                  str_eq_of_incomp (by simpa using hbcg) (by simpa using hacl)
                subst hac
                rw [if_neg hacl] at h2
                rw [if_neg (by rw [strGt_irrefl]; simp), if_neg (by rw [strLt_irrefl]; simp)]
                exact ih bs' cs' (fun y hy => ha y (by simp [hy]))
                  (fun y hy => hb y (by simp [hy])) h1 h2

/-!
Facts about New, collectPrmds and the re-derived pre-release list.
-/

lemma map_mk_data (l : List String) :
    (l.map String.data).map (fun cs => (⟨cs⟩ : String)) = l := by
  rw [List.map_map]
  have h : ((fun cs => (⟨cs⟩ : String)) ∘ String.data) = id := funext fun s => rfl
  rw [h, List.map_id]

lemma collectPrmds_fst_mem : ∀ {prmds : List String} {x : String},
    x ∈ (collectPrmds prmds).1 → ∃ s, x = validID s true := by
  intro prmds
  induction prmds with
  | nil =>
    intro x hx
    simp [collectPrmds] at hx
  | cons p rest ih =>
    intro x hx
    by_cases hp : p = Metadata
    · simp only [collectPrmds] at hx
      rw [if_pos hp] at hx
      simp at hx
    · simp only [collectPrmds] at hx
      rw [if_neg hp] at hx
      have hx' : x ∈ validID p true :: (collectPrmds rest).1 := hx
      rcases List.mem_cons.mp hx' with h | h
      · exact ⟨p, h⟩
      · exact ih h

lemma collectPrmds_snd_mem : ∀ {prmds : List String} {x : String},
    x ∈ (collectPrmds prmds).2 → ∃ s, x = validID s false := by
  intro prmds
  induction prmds with
  | nil =>
    intro x hx
    simp [collectPrmds] at hx
  | cons p rest ih =>
    intro x hx
    by_cases hp : p = Metadata
    · simp only [collectPrmds] at hx
      rw [if_pos hp] at hx
      have hx' : x ∈ rest.map (fun s => validID s false) := hx
      obtain ⟨s, _, hs⟩ := List.mem_map.mp hx'
      exact ⟨s, hs.symm⟩
    · simp only [collectPrmds] at hx
      rw [if_neg hp] at hx
      have hx' : x ∈ (collectPrmds rest).2 := hx
      exact ih hx'

lemma New_pre_alpha {ma mi pa : Int} {prmds : List String} :
    ∀ x ∈ (New ma mi pa prmds).preRelease, ∀ c ∈ x.data, keepCh c = true := by
  intro x hx c hc
  obtain ⟨s, rfl⟩ := collectPrmds_fst_mem hx
  exact mem_validID_keep hc

lemma New_md_alpha {ma mi pa : Int} {prmds : List String} :
    ∀ x ∈ (New ma mi pa prmds).metadata, ∀ c ∈ x.data, keepCh c = true := by
  intro x hx c hc
  obtain ⟨s, rfl⟩ := collectPrmds_snd_mem hx
  exact mem_validID_keep hc

lemma clamp_nonneg (i : Int) : 0 ≤ (if i < 0 then 0 else i) := by
  split <;> omega

lemma New_major_nonneg (ma mi pa : Int) (prmds : List String) :
    0 ≤ (New ma mi pa prmds).major := clamp_nonneg ma

lemma New_minor_nonneg (ma mi pa : Int) (prmds : List String) :
    0 ≤ (New ma mi pa prmds).minor := clamp_nonneg mi

lemma New_patch_nonneg (ma mi pa : Int) (prmds : List String) :
    0 ≤ (New ma mi pa prmds).patch := clamp_nonneg pa

lemma resplitPre_eq {cv : Vsn} (hne : cv.preRelease ≠ [""])
    (halpha : ∀ x ∈ cv.preRelease, ∀ c ∈ x.data, keepCh c = true) :
    resplitPre cv = cv.preRelease := by
  cases hpr : cv.preRelease with
  | nil =>
    rw [resplitPre, preReleaseStr, hpr]
    simp [joinCh]
  | cons x xs =>
    rw [resplitPre, preReleaseStr, hpr]
    cases xs with
    | nil =>
      have hx : ¬ x = "" := fun h => hne (by rw [hpr, h])
      have hxd : x.data ≠ [] := by
        intro h
        refine hx ?_
        have hx2 : x = ⟨x.data⟩ := rfl
        rw [hx2, h]
      have hxa : ∀ c ∈ x.data, ¬ c = '.' := fun c hc =>
        keep_ne_dot (halpha x (by rw [hpr]; simp) c hc)
      simp only [List.map]
      rw [show joinCh '.' [x.data] = x.data from rfl]
      rw [if_pos (by
        show (⟨x.data⟩ : String).length > 0
        have hl : (⟨x.data⟩ : String).length = x.data.length := rfl
        rw [hl]
        exact List.length_pos.mpr hxd)]
      rw [show ((⟨x.data⟩ : String)).data = x.data from rfl]
      rw [splitCh_sepfree hxa]
      rfl
    | cons y ys =>
      simp only [List.map]
      have hstep : joinCh '.' (x.data :: y.data :: ys.map String.data) =
          x.data ++ '.' :: joinCh '.' (y.data :: ys.map String.data) := rfl
      have hsepfree : ∀ el ∈ x.data :: y.data :: ys.map String.data,
          ∀ c ∈ el, ¬ c = '.' := by
        intro el hel c hc
        have hel' : el ∈ (x :: y :: ys).map String.data := by
          simpa using hel
        obtain ⟨s, hs, hdata⟩ := List.mem_map.mp hel'
        refine keep_ne_dot (halpha s (by rw [hpr]; exact hs) c ?_)
        rw [hdata]
        exact hc
      have hsplit : splitCh '.' (joinCh '.' (x.data :: y.data :: ys.map String.data)) =
          x.data :: y.data :: ys.map String.data :=
        splitCh_join (by simp) hsepfree
      rw [if_pos (by
        show ((⟨joinCh '.' (x.data :: y.data :: ys.map String.data)⟩ : String)).length > 0
        have hl : ((⟨joinCh '.' (x.data :: y.data :: ys.map String.data)⟩ : String)).length =
            (joinCh '.' (x.data :: y.data :: ys.map String.data)).length := rfl
        rw [hl, hstep]
        simp)]
      rw [hsplit]
      have hmk : (((x :: y :: ys).map String.data).map (fun cs => (⟨cs⟩ : String))) =
          x :: y :: ys := map_mk_data (x :: y :: ys)
      simpa using hmk

/-!
Characterization of vsn.Less.
-/

lemma Less_same_nums {v cv : Vsn} (h1 : v.major = cv.major)
    (h2 : v.minor = cv.minor) (h3 : v.patch = cv.patch) :
    Less v cv = less v.preRelease (resplitPre cv) := by
  rw [Less, if_neg (by omega), if_neg (by omega), if_neg (by omega),
    if_neg (by omega), if_neg (by omega), if_neg (by omega)]

lemma Less_iff (v cv : Vsn) : Less v cv = true ↔
    (v.major < cv.major ∨ (v.major = cv.major ∧
      (v.minor < cv.minor ∨ (v.minor = cv.minor ∧
        (v.patch < cv.patch ∨ (v.patch = cv.patch ∧
          less v.preRelease (resplitPre cv) = true)))))) := by
  rw [Less]
  by_cases h1 : v.major < cv.major
  · simp [h1]
  · rw [if_neg h1]
    by_cases h2 : v.major > cv.major
    · rw [if_pos h2]
      simp only [Bool.false_eq_true, false_iff]
      rintro (h | ⟨he, _⟩) <;> omega
    · rw [if_neg h2]
      by_cases h3 : v.minor < cv.minor
      · simp [show v.major = cv.major by omega, h3]
      · rw [if_neg h3]
        by_cases h4 : v.minor > cv.minor
        · rw [if_pos h4]
          simp only [Bool.false_eq_true, false_iff]
          rintro (h | ⟨he, h | ⟨he', hrest⟩⟩) <;> omega
        · rw [if_neg h4]
          by_cases h5 : v.patch < cv.patch
          · simp [show v.major = cv.major by omega, show v.minor = cv.minor by omega, h5]
          · rw [if_neg h5]
            by_cases h6 : v.patch > cv.patch
            · rw [if_pos h6]
              simp only [Bool.false_eq_true, false_iff]
              rintro (h | ⟨he, h | ⟨he', h | ⟨he'', hrest⟩⟩⟩) <;> omega
            · rw [if_neg h6]
              constructor
              · intro h
                exact Or.inr ⟨by omega, Or.inr ⟨by omega, Or.inr ⟨by omega, h⟩⟩⟩
              · rintro (h | ⟨he, h | ⟨he', h | ⟨he'', h⟩⟩⟩)
                · omega
                · omega
                · omega
                · exact h

/-!
Inversion for Parse.
-/

lemma Parse_ok_shape {s : String} {v : Vsn} (h : Parse s = .ok v) :
    ∃ ma mi pa prmds, v = New ma mi pa prmds := by
  unfold Parse at h
  repeat' split at h
  all_goals
    first
      | (cases h
         exact ⟨_, _, _, _, rfl⟩)
      | cases h

/-!
Evaluation of parseNumberString on short component lists.
-/

lemma parseNumberString_one {s1 : String} {n1 : Int} (h1 : goAtoi s1 = some n1)
    (hn1 : 0 ≤ n1) (hd1 : ∀ c ∈ s1.data, ¬ c = '.') :
    parseNumberString s1 = .ok [n1, 0, 0] := by
  simp only [parseNumberString, splitCh_sepfree hd1, List.map]
  rw [show (⟨s1.data⟩ : String) = s1 from rfl]
  rw [if_neg (by simp)]
  simp only [fillNums, h1]
  rw [if_neg (by omega)]

lemma parseNumberString_two {s1 s2 : String} {n1 n2 : Int} (h1 : goAtoi s1 = some n1)
    (h2 : goAtoi s2 = some n2) (hn1 : 0 ≤ n1) (hn2 : 0 ≤ n2)
    (hd1 : ∀ c ∈ s1.data, ¬ c = '.') (hd2 : ∀ c ∈ s2.data, ¬ c = '.') :
    parseNumberString ⟨s1.data ++ '.' :: s2.data⟩ = .ok [n1, n2, 0] := by
  have hs2 : splitCh '.' s2.data = [s2.data] := splitCh_sepfree hd2
  have hcons : splitCh '.' ('.' :: s2.data) = [] :: [s2.data] := by
    simp [splitCh, hs2]
  have hsplit : splitCh '.' (s1.data ++ '.' :: s2.data) = [s1.data, s2.data] := by
    have happ := splitCh_append_of_sepfree hd1 hcons
    simpa using happ
  simp only [parseNumberString]
  simp only [hsplit, List.map]
  simp only [show (⟨s1.data⟩ : String) = s1 from rfl,
    show (⟨s2.data⟩ : String) = s2 from rfl]
  rw [if_neg (by simp)]
  simp only [fillNums, h1, h2]
  rw [if_neg (by omega), if_neg (by omega)]

/-!
The error path of Parse.
-/

lemma splitVersionString_ok (s : String) :
    ∃ n p m, splitVersionString s = .ok [n, p, m] ∧ n.data = numericSegment s := by
  rcases splitN2_shape '+' s.data with ⟨a, ha⟩ | ⟨a, b, hab⟩
  · rcases splitN2_shape '-' a with ⟨n, hn⟩ | ⟨n, p2, hnp⟩
    · refine ⟨⟨n⟩, "", "", ?_, ?_⟩
      · simp only [splitVersionString, ha, hn]
      · simp [numericSegment, ha, hn]
    · refine ⟨⟨n⟩, ⟨p2⟩, "", ?_, ?_⟩
      · simp only [splitVersionString, ha, hnp]
      · simp [numericSegment, ha, hnp]
  · rcases splitN2_shape '-' a with ⟨n, hn⟩ | ⟨n, p2, hnp⟩
    · refine ⟨⟨n⟩, "", ⟨b⟩, ?_, ?_⟩
      · simp only [splitVersionString, hab, hn]
      · simp [numericSegment, hab, hn]
    · refine ⟨⟨n⟩, ⟨p2⟩, ⟨b⟩, ?_, ?_⟩
      · simp only [splitVersionString, hab, hnp]
      · simp [numericSegment, hab, hnp]

lemma fillNums_ok_length : ∀ (strs : List String) (ds l : List Int),
    fillNums strs ds = .ok l → l.length = ds.length := by
  intro strs
  induction strs with
  | nil =>
    intro ds l h
    cases h
    rfl
  | cons s rest ih =>
    intro ds l h
    cases ds with
    | nil => cases h
    | cons d ds' =>
      simp only [fillNums] at h
      cases hga : goAtoi s with
      | none =>
        simp only [hga] at h
        cases h
      | some num =>
        simp only [hga] at h
        by_cases hneg : num < 0
        · rw [if_pos hneg] at h
          cases h
        · rw [if_neg hneg] at h
          cases hfill : fillNums rest ds' with
          | error e =>
            simp only [hfill] at h
            cases h
          | ok tail =>
            simp only [hfill] at h
            cases h
            have htail := ih ds' tail hfill
            simp [htail]

lemma parseNumberString_ok_shape {n : String} {l : List Int}
    (h : parseNumberString n = .ok l) : ∃ a b c, l = [a, b, c] := by
  rw [parseNumberString] at h
  split at h
  · cases h
  · have hl3 := fillNums_ok_length _ _ _ h
    cases l with
    | nil => cases hl3
    | cons a l1 =>
      cases l1 with
      | nil => cases hl3
      | cons b l2 =>
        cases l2 with
        | nil => cases hl3
        | cons c l3 =>
          cases l3 with
          | nil => exact ⟨a, b, c, rfl⟩
          | cons d l4 => cases hl3

lemma except_error_eq {α : Type} {x : Except VError α} :
    (∃ e, x = .error e) ↔ x = .error .IllegalFormat := by
  constructor
  · rintro ⟨e, he⟩
    cases e
    exact he
  · intro h
    exact ⟨_, h⟩

lemma fillNums_error_iff : ∀ (strs : List String) (ds : List Int),
    strs.length ≤ ds.length →
    ((∃ e, fillNums strs ds = .error e) ↔
      ∃ x ∈ strs, goAtoi x = none ∨ ∃ n, goAtoi x = some n ∧ n < 0) := by
  intro strs
  induction strs with
  | nil =>
    intro ds _
    constructor
    · rintro ⟨e, he⟩
      cases he
    · rintro ⟨x, hx, _⟩
      cases hx
  | cons s rest ih =>
    intro ds hlen
    cases ds with
    | nil => simp at hlen
    | cons d ds' =>
      simp only [fillNums]
      constructor
      · rintro ⟨e, he⟩
        cases hga : goAtoi s with
        | none => exact ⟨s, by simp, Or.inl hga⟩
        | some num =>
          simp only [hga] at he
          by_cases hneg : num < 0
          · exact ⟨s, by simp, Or.inr ⟨num, hga, hneg⟩⟩
          · rw [if_neg hneg] at he
            cases hfill : fillNums rest ds' with
            | error e2 =>
              obtain ⟨x, hx, hc⟩ := (ih ds' (by simpa using hlen)).mp ⟨e2, hfill⟩
              exact ⟨x, by simp [hx], hc⟩
            | ok tail =>
              simp only [hfill] at he
              cases he
      · rintro ⟨x, hx, hc⟩
        rcases List.mem_cons.mp hx with rfl | hx'
        · rcases hc with hnone | ⟨n, hsome, hneg⟩
          · rw [hnone]
            exact ⟨.IllegalFormat, rfl⟩
          · simp only [hsome]
            rw [if_pos hneg]
            exact ⟨.IllegalFormat, rfl⟩
        · cases hga : goAtoi s with
          | none => exact ⟨.IllegalFormat, rfl⟩
          | some num =>
            by_cases hneg : num < 0
            · exact ⟨.IllegalFormat, by simp only [if_pos hneg]⟩
            · obtain ⟨e2, he2⟩ := (ih ds' (by simpa using hlen)).mpr ⟨x, hx', hc⟩
              refine ⟨e2, ?_⟩
              simp only [if_neg hneg, he2]

lemma parseNumberString_error_iff (nstr : String) :
    parseNumberString nstr = .error .IllegalFormat ↔
      (3 < (splitCh '.' nstr.data).length ∨
        ∃ cs ∈ splitCh '.' nstr.data,
          goAtoi ⟨cs⟩ = none ∨ ∃ n, goAtoi ⟨cs⟩ = some n ∧ n < 0) := by
  rw [parseNumberString]
  have hmaplen : ((splitCh '.' nstr.data).map (fun cs => (⟨cs⟩ : String))).length =
      (splitCh '.' nstr.data).length := List.length_map _ _
  by_cases hlen : 3 < (splitCh '.' nstr.data).length
  · rw [if_pos (by
      rw [Bool.or_eq_true, decide_eq_true_eq, decide_eq_true_eq, hmaplen]
      exact Or.inr hlen)]
    simp [hlen]
  · rw [if_neg (by
      rw [Bool.or_eq_true, decide_eq_true_eq, decide_eq_true_eq, hmaplen]
      rintro (h | h)
      · have hne := splitCh_ne_nil '.' nstr.data
        cases hsp : splitCh '.' nstr.data with
        | nil => exact hne hsp
        | cons hd tl =>
          rw [hsp] at h
          simp at h
      · omega)]
    rw [← except_error_eq]
    rw [fillNums_error_iff _ _ (by
      rw [hmaplen]
      show (splitCh '.' nstr.data).length ≤ 3
      omega)]
    constructor
    · rintro ⟨x, hx, hc⟩
      obtain ⟨cs, hcs, rfl⟩ := List.mem_map.mp hx
      exact Or.inr ⟨cs, hcs, hc⟩
    · rintro (h | ⟨cs, hcs, hc⟩)
      · omega
      · exact ⟨⟨cs⟩, List.mem_map.mpr ⟨cs, hcs, rfl⟩, hc⟩

lemma Parse_eq (s n p m : String) (h : splitVersionString s = .ok [n, p, m]) :
    Parse s =
      match parseNumberString n with
      | .error e => .error e
      | .ok nums =>
        let prmds : List String :=
          if p ≠ "" then (splitCh '.' p.data).map (fun cs => (⟨cs⟩ : String)) else []
        let prmds :=
          if m ≠ "" then
            prmds ++ Metadata :: (splitCh '.' m.data).map (fun cs => (⟨cs⟩ : String))
          else prmds
        match nums with
        | [ma, mi, pa] => .ok (New ma mi pa prmds)
        | _ => .error .IllegalFormat := by
  rw [Parse, h]

/-!
Decomposition of the rendered string for the round-trip results.
-/

lemma numChars_classify (v : Vsn) (h0 : 0 ≤ v.major) (h1 : 0 ≤ v.minor)
    (h2 : 0 ≤ v.patch) :
    ∀ c ∈ numChars v, isDigitCh c = true ∨ c = '.' := by
  intro c hc
  rw [numChars] at hc
  rcases List.mem_append.mp hc with h | h
  · exact Or.inl (List.all_eq_true.mp (intChars_digits h0) c h)
  · rcases List.mem_cons.mp h with h | h
    · exact Or.inr h
    · rcases List.mem_append.mp h with h | h
      · exact Or.inl (List.all_eq_true.mp (intChars_digits h1) c h)
      · rcases List.mem_cons.mp h with h | h
        · exact Or.inr h
        · exact Or.inl (List.all_eq_true.mp (intChars_digits h2) c h)

lemma numChars_noplus {v : Vsn} (h0 : 0 ≤ v.major) (h1 : 0 ≤ v.minor)
    (h2 : 0 ≤ v.patch) : ∀ c ∈ numChars v, ¬ c = '+' := by
  intro c hc
  rcases numChars_classify v h0 h1 h2 c hc with h | h
  · exact digit_ne_plus h
  · intro he
    rw [he] at h
    exact absurd h (by decide)

lemma numChars_nominus {v : Vsn} (h0 : 0 ≤ v.major) (h1 : 0 ≤ v.minor)
    (h2 : 0 ≤ v.patch) : ∀ c ∈ numChars v, ¬ c = '-' := by
  intro c hc
  rcases numChars_classify v h0 h1 h2 c hc with h | h
  · exact digit_ne_hyphen h
  · intro he
    rw [he] at h
    exact absurd h (by decide)

lemma mem_joinCh {sep : Char} {l : List (List Char)} {c : Char}
    (hc : c ∈ joinCh sep l) : c = sep ∨ ∃ el ∈ l, c ∈ el := by
  induction l with
  | nil => cases hc
  | cons x xs ih =>
    cases xs with
    | nil => exact Or.inr ⟨x, by simp, hc⟩
    | cons y ys =>
      rcases List.mem_append.mp hc with h | h
      · exact Or.inr ⟨x, by simp, h⟩
      · rcases List.mem_cons.mp h with h | h
        · exact Or.inl h
        · rcases ih h with h | ⟨el, hel, hcel⟩
          · exact Or.inl h
          · exact Or.inr ⟨el, by simp [hel], hcel⟩

lemma join_alpha_noplus {l : List String}
    (hl : ∀ x ∈ l, ∀ c ∈ x.data, keepCh c = true) :
    ∀ c ∈ joinCh '.' (l.map String.data), ¬ c = '+' := by
  intro c hc
  rcases mem_joinCh hc with h | ⟨el, hel, hcel⟩
  · intro he
    rw [he] at h
    exact absurd h (by decide)
  · obtain ⟨x, hx, rfl⟩ := List.mem_map.mp hel
    exact keep_ne_plus (hl x hx c hcel)

lemma join_alpha_nodot {l : List String}
    (hl : ∀ x ∈ l, ∀ c ∈ x.data, keepCh c = true) :
    ∀ el ∈ l.map String.data, ∀ c ∈ el, ¬ c = '.' := by
  intro el hel c hc
  obtain ⟨x, hx, rfl⟩ := List.mem_map.mp hel
  exact keep_ne_dot (hl x hx c hc)

lemma splitVersionString_vString (v : Vsn)
    (h0 : 0 ≤ v.major) (h1 : 0 ≤ v.minor) (h2 : 0 ≤ v.patch)
    (hpre : ∀ x ∈ v.preRelease, ∀ c ∈ x.data, keepCh c = true) :
    splitVersionString (vString v) = .ok
      [⟨numChars v⟩,
        if v.preRelease.length > 0 then
          ⟨joinCh '.' (v.preRelease.map String.data)⟩ else "",
        if v.metadata.length > 0 then
          ⟨joinCh '.' (v.metadata.map String.data)⟩ else ""] := by
  have hplusN := numChars_noplus h0 h1 h2
  have hminusN := numChars_nominus h0 h1 h2
  have hmdata : Metadata.data ++ (metadataStr v).data = '+' :: (metadataStr v).data := rfl
  by_cases hpe : v.preRelease.length > 0
  · have hplusPre : ∀ c ∈ numChars v ++ ('-' :: (preReleaseStr v).data), ¬ c = '+' := by
      intro c hc
      rcases List.mem_append.mp hc with h | h
      · exact hplusN c h
      · rcases List.mem_cons.mp h with h | h
        · intro he
          rw [he] at h
          exact absurd h (by decide)
        · exact join_alpha_noplus hpre c h
    have hB : splitN2 '-' (numChars v ++ ('-' :: (preReleaseStr v).data)) =
        [numChars v, (preReleaseStr v).data] := splitN2_first hminusN
    by_cases hme : v.metadata.length > 0
    · have hv : vString v = ⟨(numChars v ++ ('-' :: (preReleaseStr v).data)) ++
          (Metadata.data ++ (metadataStr v).data)⟩ := by
        rw [vString]
        rw [if_pos hpe, if_pos hme]
      have hA : splitN2 '+' ((numChars v ++ ('-' :: (preReleaseStr v).data)) ++
          ('+' :: (metadataStr v).data)) =
          [numChars v ++ ('-' :: (preReleaseStr v).data), (metadataStr v).data] :=
        splitN2_first hplusPre
      rw [hv, splitVersionString]
      simp only [hmdata, hA, hB]
      rw [if_pos hpe, if_pos hme]
      rfl
    · have hv : vString v = ⟨numChars v ++ ('-' :: (preReleaseStr v).data)⟩ := by
        rw [vString]
        rw [if_pos hpe, if_neg hme]
      have hA : splitN2 '+' (numChars v ++ ('-' :: (preReleaseStr v).data)) =
          [numChars v ++ ('-' :: (preReleaseStr v).data)] :=
        splitN2_sepfree hplusPre
      rw [hv, splitVersionString]
      simp only [hA, hB]
      rw [if_pos hpe, if_neg hme]
      rfl
  · have hB : splitN2 '-' (numChars v) = [numChars v] := splitN2_sepfree hminusN
    by_cases hme : v.metadata.length > 0
    · have hv : vString v = ⟨numChars v ++ (Metadata.data ++ (metadataStr v).data)⟩ := by
        rw [vString]
        rw [if_neg hpe, if_pos hme]
      have hA : splitN2 '+' (numChars v ++ ('+' :: (metadataStr v).data)) =
          [numChars v, (metadataStr v).data] := splitN2_first hplusN
      rw [hv, splitVersionString]
      simp only [hmdata, hA, hB]
      rw [if_neg hpe, if_pos hme]
      rfl
    · have hv : vString v = ⟨numChars v⟩ := by
        rw [vString]
        rw [if_neg hpe, if_neg hme]
      have hA : splitN2 '+' (numChars v) = [numChars v] := splitN2_sepfree hplusN
      rw [hv, splitVersionString]
      simp only [hA, hB]
      rw [if_neg hpe, if_neg hme]

lemma parseNumberString_numChars (v : Vsn)
    (h0 : 0 ≤ v.major) (h0' : v.major ≤ maxInt64)
    (h1 : 0 ≤ v.minor) (h1' : v.minor ≤ maxInt64)
    (h2 : 0 ≤ v.patch) (h2' : v.patch ≤ maxInt64) :
    parseNumberString ⟨numChars v⟩ = .ok [v.major, v.minor, v.patch] := by
  have hdA : ∀ c ∈ intChars v.major, ¬ c = '.' :=
    fun c hc => digit_ne_dot (List.all_eq_true.mp (intChars_digits h0) c hc)
  have hdB : ∀ c ∈ intChars v.minor, ¬ c = '.' :=
    fun c hc => digit_ne_dot (List.all_eq_true.mp (intChars_digits h1) c hc)
  have hdC : ∀ c ∈ intChars v.patch, ¬ c = '.' :=
    fun c hc => digit_ne_dot (List.all_eq_true.mp (intChars_digits h2) c hc)
  have hsC : splitCh '.' (intChars v.patch) = [intChars v.patch] := splitCh_sepfree hdC
  have hconsC : splitCh '.' ('.' :: intChars v.patch) = [] :: [intChars v.patch] := by
    simp [splitCh, hsC]
  have hBC : splitCh '.' (intChars v.minor ++ ('.' :: intChars v.patch)) =
      [intChars v.minor, intChars v.patch] := by
    have happ := splitCh_append_of_sepfree hdB hconsC
    simpa using happ
  have hconsBC : splitCh '.' ('.' :: (intChars v.minor ++ ('.' :: intChars v.patch))) =
      [] :: [intChars v.minor, intChars v.patch] := by
    simp [splitCh, hBC]
  have hABC : splitCh '.' (numChars v) =
      [intChars v.major, intChars v.minor, intChars v.patch] := by
    rw [numChars]
    have happ := splitCh_append_of_sepfree hdA hconsBC
    simpa using happ
  simp only [parseNumberString, hABC, List.map]
  rw [if_neg (by simp)]
  simp only [fillNums, goAtoi_intChars h0 h0', goAtoi_intChars h1 h1',
    goAtoi_intChars h2 h2']
  rw [if_neg (by omega), if_neg (by omega), if_neg (by omega)]

/-!
Reconstruction of the identifier lists by the second New call.
-/

lemma map_validID_false_id {md : List String} (hmd : ∀ x ∈ md, validID x false = x) :
    md.map (fun s => validID s false) = md := by
  induction md with
  | nil => rfl
  | cons x rest ih =>
    simp only [List.map]
    rw [hmd x (by simp), ih (fun y hy => hmd y (by simp [hy]))]

lemma collectPrmds_no_meta (pre : List String)
    (hplus : ∀ x ∈ pre, ¬ x = Metadata)
    (hpre : ∀ x ∈ pre, validID x true = x) :
    collectPrmds pre = (pre, []) := by
  induction pre with
  | nil => rfl
  | cons x rest ih =>
    simp only [collectPrmds]
    rw [if_neg (hplus x (by simp))]
    rw [ih (fun y hy => hplus y (by simp [hy])) (fun y hy => hpre y (by simp [hy]))]
    rw [hpre x (by simp)]

lemma collectPrmds_with_meta (pre md : List String)
    (hplus : ∀ x ∈ pre, ¬ x = Metadata)
    (hpre : ∀ x ∈ pre, validID x true = x)
    (hmd : ∀ x ∈ md, validID x false = x) :
    collectPrmds (pre ++ Metadata :: md) = (pre, md) := by
  induction pre with
  | nil =>
    show collectPrmds (Metadata :: md) = ([], md)
    simp only [collectPrmds]
    rw [if_pos trivial, map_validID_false_id hmd]
  | cons x rest ih =>
    show collectPrmds (x :: (rest ++ Metadata :: md)) = (x :: rest, md)
    simp only [collectPrmds]
    rw [if_neg (hplus x (by simp))]
    show (validID x true :: (collectPrmds (rest ++ Metadata :: md)).1,
      (collectPrmds (rest ++ Metadata :: md)).2) = (x :: rest, md)
    rw [ih (fun y hy => hplus y (by simp [hy])) (fun y hy => hpre y (by simp [hy]))]
    rw [hpre x (by simp)]

lemma pre_valid_idem {ma mi pa : Int} {ids : List String} :
    ∀ x ∈ (New ma mi pa ids).preRelease, validID x true = x := by
  intro x hx
  obtain ⟨s, rfl⟩ := collectPrmds_fst_mem hx
  exact validID_idem s true

lemma md_valid_idem {ma mi pa : Int} {ids : List String} :
    ∀ x ∈ (New ma mi pa ids).metadata, validID x false = x := by
  intro x hx
  obtain ⟨s, rfl⟩ := collectPrmds_snd_mem hx
  exact validID_idem s false

lemma alpha_ne_meta {x : String} (hx : ∀ c ∈ x.data, keepCh c = true) :
    ¬ x = Metadata := by
  intro he
  subst he
  have h := hx '+' (by decide)
  exact absurd h (by decide)

lemma join_ne_empty {l : List String} (hne : l ≠ []) (hne1 : l ≠ [""]) :
    (⟨joinCh '.' (l.map String.data)⟩ : String) ≠ "" := by
  cases l with
  | nil => exact absurd rfl hne
  | cons x xs =>
    cases xs with
    | nil =>
      have hx : x ≠ "" := fun h => hne1 (by rw [h])
      intro h
      apply hx
      have he : (⟨joinCh '.' ([x].map String.data)⟩ : String) = x := rfl
      rw [he] at h
      exact h
    | cons y ys =>
      intro h
      have hd : joinCh '.' ((x :: y :: ys).map String.data) = [] := by
        have := congrArg String.data h
        simpa using this
      rw [show joinCh '.' ((x :: y :: ys).map String.data) =
        x.data ++ '.' :: joinCh '.' ((y :: ys).map String.data) from rfl] at hd
      exact absurd hd (by simp)

lemma New_canonical {a b c : Int} {prmds P M : List String}
    (h0 : 0 ≤ a) (h1 : 0 ≤ b) (h2 : 0 ≤ c)
    (hc : collectPrmds prmds = (P, M)) :
    New a b c prmds = ⟨a, b, c, P, M⟩ := by
  rw [New, hc]
  simp only [if_neg (by omega : ¬ a < 0), if_neg (by omega : ¬ b < 0),
    if_neg (by omega : ¬ c < 0)]

lemma clamp_le_max {i : Int} (h : i ≤ maxInt64) :
    (if i < 0 then 0 else i) ≤ maxInt64 := by
  have hM : (0 : Int) ≤ maxInt64 := by norm_num [maxInt64]
  split <;> omega

lemma Parse_finish {s : String} {v : Vsn} (P M : String)
    (hsplit : splitVersionString s = .ok [⟨numChars v⟩, P, M])
    (hnum : parseNumberString ⟨numChars v⟩ = .ok [v.major, v.minor, v.patch])
    (hnew : New v.major v.minor v.patch
      (let prmds : List String :=
        if P ≠ "" then (splitCh '.' P.data).map (fun cs => (⟨cs⟩ : String)) else []
      if M ≠ "" then
        prmds ++ Metadata :: (splitCh '.' M.data).map (fun cs => (⟨cs⟩ : String))
      else prmds) = v) :
    Parse s = .ok v := by
  rw [Parse_eq s _ P M hsplit, hnum]
  exact congrArg Except.ok hnew

/-!
Claim theorems.
-/

/-- Claim C1, counterexample: lessThan is not irreflexive on every
constructed version.  The token "!" sanitizes to the empty identifier,
the constructed pre-release list is the singleton empty string, the
compared copy re-derives its pre-release list through the dot-joined
form (which is empty, giving the empty list), and the length rule then
declares the version less than itself. -/
theorem C1_counterexample :
    Less (New 1 0 0 ["!"]) (New 1 0 0 ["!"]) = true := rfl

/-- Claim C1 (amended): lessThan is irreflexive for every version
obtained from construct (New) whose pre-release sequence is not
exactly the singleton empty identifier. -/
theorem C1_irreflexive_amended (ma mi pa : Int) (ids : List String)
    (h : (New ma mi pa ids).preRelease ≠ [""]) :
    Less (New ma mi pa ids) (New ma mi pa ids) = false := by
  rw [Less_same_nums rfl rfl rfl, resplitPre_eq h New_pre_alpha, less_self]

/-- Witness for the amended claim C1 at a concrete version. -/
theorem C1_witness :
    (New 1 0 0 ["alpha", "1", "+", "x"]).preRelease ≠ [""] ∧
      Less (New 1 0 0 ["alpha", "1", "+", "x"]) (New 1 0 0 ["alpha", "1", "+", "x"]) = false :=
  ⟨by decide, C1_irreflexive_amended 1 0 0 ["alpha", "1", "+", "x"] (by decide)⟩

/-- Claim C8: the sanitizer validID returns the input filtered to
ASCII letters, digits and hyphens in original order, and in numeric
mode an all-digit non-empty result has its leading zeros stripped,
collapsing all zeros to the single character zero; stated as equality
with the spec-modelled sanitizer validIDSpec. -/
theorem C8_sanitizer (id : String) (numericMode : Bool) :
    validID id numericMode = validIDSpec id numericMode :=
  validID_eq_spec id numericMode

/-- Claim C9, counterexample: a constructed version can carry an empty
pre-release identifier, violating the claimed non-emptiness invariant:
the token "!" sanitizes to the empty string and New keeps it. -/
theorem C9_counterexample : "" ∈ (New 1 0 0 ["!"]).preRelease := by decide

/-- Claim C9 (amended): every element of the preRelease and metadata
sequences of any version produced by construct (New) or by parse is
composed only of ASCII letters, digits and hyphens (the claimed
non-emptiness does not hold in general). -/
theorem C9_alphabet_amended :
    (∀ (ma mi pa : Int) (ids : List String),
      (∀ x ∈ (New ma mi pa ids).preRelease, alphaOnly x = true) ∧
        (∀ x ∈ (New ma mi pa ids).metadata, alphaOnly x = true)) ∧
    (∀ (s : String) (v : Vsn), Parse s = .ok v →
      (∀ x ∈ v.preRelease, alphaOnly x = true) ∧
        (∀ x ∈ v.metadata, alphaOnly x = true)) := by
  have hNew : ∀ (ma mi pa : Int) (ids : List String),
      (∀ x ∈ (New ma mi pa ids).preRelease, alphaOnly x = true) ∧
        (∀ x ∈ (New ma mi pa ids).metadata, alphaOnly x = true) := by
    intro ma mi pa ids
    constructor
    · intro x hx
      rw [alphaOnly, List.all_eq_true]
      exact New_pre_alpha x hx
    · intro x hx
      rw [alphaOnly, List.all_eq_true]
      exact New_md_alpha x hx
  refine ⟨hNew, ?_⟩
  intro s v hv
  obtain ⟨ma, mi, pa, prmds, rfl⟩ := Parse_ok_shape hv
  exact hNew ma mi pa prmds

/-- Witness for the amended claim C9 at a concrete parse. -/
theorem C9_witness :
    (∀ x ∈ (New 1 2 3 ["al?pha", "01", "+", "x!"]).preRelease, alphaOnly x = true) ∧
      (∀ x ∈ (New 1 2 3 ["al?pha", "01", "+", "x!"]).metadata, alphaOnly x = true) :=
  C9_alphabet_amended.2 "1.2.3-al?pha.01+x!" (New 1 2 3 ["al?pha", "01", "+", "x!"]) rfl

/-- Claim C2, counterexample: at a position whose identifiers are the
exactly equal string "1", the comparison does not continue to the next
position: both sides parse as integers, numericLess reports a
definitive not-less result, and the comparison stops, whereas the
spec-modelled comparison specLess continues and finds "a" less
than "b". -/
theorem C2_counterexample :
    Less (New 1 0 0 ["1", "a"]) (New 1 0 0 ["1", "b"]) = false ∧
      specLess ["1", "a"] ["1", "b"] = true :=
  ⟨rfl, rfl⟩

/-- Claim C2 (amended): for versions with equal major, minor and patch,
at a position whose identifiers are exactly equal strings the
comparison continues to the next position only when the identifier does
not parse as an integer; when it does parse, the comparison ends at
that position with a definitive not-less result. -/
theorem C2_equal_position_amended (v w : Vsn) (x : String) (xs ys : List String)
    (h1 : v.major = w.major) (h2 : v.minor = w.minor) (h3 : v.patch = w.patch)
    (hv : v.preRelease = x :: xs) (hw : w.preRelease = x :: ys)
    (hwa : ∀ y ∈ w.preRelease, ∀ c ∈ y.data, keepCh c = true)
    (hwne : w.preRelease ≠ [""]) :
    (∀ n, goAtoi x = some n → Less v w = false) ∧
      (goAtoi x = none → Less v w = less xs ys) := by
  have hr : resplitPre w = w.preRelease := resplitPre_eq hwne hwa
  rw [Less_same_nums h1 h2 h3, hr, hv, hw]
  constructor
  · intro n hn
    rw [less_cons]
    have hnl : numericLess x x = (decide (n < n), true) := by rw [numericLess, hn]
    rw [hnl]
    simp
  · intro hn
    rw [less_cons_nonnum _ _ _ hn, strGt_irrefl, strLt_irrefl]
    simp

/-- Witness for the amended claim C2 at a concrete pair of versions. -/
theorem C2_witness :
    Less (New 1 0 0 ["1", "x"]) (New 1 0 0 ["1", "y"]) = false :=
  (C2_equal_position_amended (New 1 0 0 ["1", "x"]) (New 1 0 0 ["1", "y"])
    "1" ["x"] ["y"] rfl rfl rfl rfl rfl (by decide) (by decide)).1 1 rfl

/-- Claim C3, counterexample: lessThan is not transitive.  The
identifier "9" is numerically less than "10", "10" is
lexicographically less than "1a", but "9" is lexicographically greater
than "1a". -/
theorem C3_counterexample :
    Less (New 1 0 0 ["9"]) (New 1 0 0 ["10"]) = true ∧
      Less (New 1 0 0 ["10"]) (New 1 0 0 ["1a"]) = true ∧
      Less (New 1 0 0 ["9"]) (New 1 0 0 ["1a"]) = false :=
  ⟨rfl, rfl, rfl⟩

/-- Claim C3 (amended): lessThan is transitive on versions none of
whose pre-release identifiers parses as an integer, with pre-release
lists exactly recoverable from their dot-joined form (identifiers from
the sanitized alphabet, list not the singleton empty identifier). -/
theorem C3_transitive_amended (a b c : Vsn)
    (hb1 : b.preRelease ≠ [""]) (hc1 : c.preRelease ≠ [""])
    (hba : ∀ x ∈ b.preRelease, ∀ ch ∈ x.data, keepCh ch = true)
    (hca : ∀ x ∈ c.preRelease, ∀ ch ∈ x.data, keepCh ch = true)
    (hna : ∀ x ∈ a.preRelease, goAtoi x = none)
    (hnb : ∀ x ∈ b.preRelease, goAtoi x = none)
    (h1 : Less a b = true) (h2 : Less b c = true) :
    Less a c = true := by
  rw [Less_iff] at h1 h2 ⊢
  rw [resplitPre_eq hb1 hba] at h1
  rw [resplitPre_eq hc1 hca] at h2 ⊢
  rcases h1 with h1 | ⟨e1, h1 | ⟨e2, h1 | ⟨e3, h1⟩⟩⟩ <;>
    rcases h2 with h2 | ⟨f1, h2 | ⟨f2, h2 | ⟨f3, h2⟩⟩⟩ <;>
      first
        | exact Or.inl (by omega)
        | exact Or.inr ⟨by omega, Or.inl (by omega)⟩
        | exact Or.inr ⟨by omega, Or.inr ⟨by omega, Or.inl (by omega)⟩⟩
        | exact Or.inr ⟨by omega, Or.inr ⟨by omega, Or.inr ⟨by omega,
            less_trans_nonnum a.preRelease b.preRelease c.preRelease hna hnb h1 h2⟩⟩⟩

/-- Witness for the amended claim C3 at a concrete triple. -/
theorem C3_witness :
    Less (New 1 0 0 ["alpha"]) (New 1 0 0 []) = true :=
  C3_transitive_amended (New 1 0 0 ["alpha"]) (New 1 0 0 ["beta"]) (New 1 0 0 [])
    (by decide) (by decide) (by decide) (by decide) (by decide) (by decide) rfl rfl

/-- Claim C4, counterexample: two versions with equal numbers whose
pre-release sequences agree on every position up to the shorter
length, where the strictly longer sequence is nevertheless not less:
the agreeing identifier "1" parses as an integer, so the walk stops
there with a definitive not-less result instead of reaching the
length rule. -/
theorem C4_counterexample :
    (New 1 0 0 ["1", "x"]).preRelease = ["1", "x"] ∧
      (New 1 0 0 ["1"]).preRelease = ["1"] ∧
      Less (New 1 0 0 ["1", "x"]) (New 1 0 0 ["1"]) = false :=
  ⟨rfl, rfl, rfl⟩

/-- Claim C4 (amended): when two versions have equal major, minor and
patch, one pre-release sequence extends the other, no identifier of
either sequence parses as an integer, and the compared version's
sequence is exactly recoverable from its dot-joined form, then
lessThan holds exactly when the left sequence is strictly longer; in
particular neither version is less when the lengths are equal. -/
theorem C4_length_rule_amended (v w : Vsn) (t : List String)
    (h1 : v.major = w.major) (h2 : v.minor = w.minor) (h3 : v.patch = w.patch)
    (hagree : v.preRelease = w.preRelease ++ t ∨ w.preRelease = v.preRelease ++ t)
    (hnv : ∀ x ∈ v.preRelease, goAtoi x = none)
    (hnw : ∀ x ∈ w.preRelease, goAtoi x = none)
    (hwa : ∀ y ∈ w.preRelease, ∀ c ∈ y.data, keepCh c = true)
    (hwne : w.preRelease ≠ [""]) :
    Less v w = decide (v.preRelease.length > w.preRelease.length) := by
  rw [Less_same_nums h1 h2 h3, resplitPre_eq hwne hwa]
  rcases hagree with h | h
  · rw [h]
    rw [(less_self_append w.preRelease t hnw).1]
    simp only [List.length_append, gt_iff_lt, decide_eq_decide]
    omega
  · rw [h]
    rw [(less_self_append v.preRelease t hnv).2]
    symm
    rw [decide_eq_false_iff_not]
    simp only [List.length_append, gt_iff_lt, not_lt]
    omega

/-- Witness for the amended claim C4, at the pair from the claim:
parse of "1.0.0-alpha" is less than parse of "1.0.0" by the length
rule with lengths one versus zero. -/
theorem C4_witness :
    Parse "1.0.0-alpha" = .ok (New 1 0 0 ["alpha"]) ∧
      Parse "1.0.0" = .ok (New 1 0 0 []) ∧
      Less (New 1 0 0 ["alpha"]) (New 1 0 0 []) = true := by
  refine ⟨rfl, rfl, ?_⟩
  have h := C4_length_rule_amended (New 1 0 0 ["alpha"]) (New 1 0 0 []) ["alpha"]
    rfl rfl rfl (Or.inl rfl) (by decide) (by decide) (by decide) (by decide)
  simpa using h

/-- Claim C7: with fewer than three dot components the parsed values
overwrite the default triple 1, 0, 0 left to right: one component
yields (n, 0, 0), two components yield (n1, n2, 0), and in particular
parse of "2" yields major 2, minor 0, patch 0. -/
theorem C7_defaults (s1 s2 : String) (n1 n2 : Int)
    (h1 : goAtoi s1 = some n1) (h2 : goAtoi s2 = some n2)
    (hn1 : 0 ≤ n1) (hn2 : 0 ≤ n2)
    (hd1 : ∀ c ∈ s1.data, ¬ c = '.') (hd2 : ∀ c ∈ s2.data, ¬ c = '.') :
    parseNumberString s1 = .ok [n1, 0, 0] ∧
      parseNumberString ⟨s1.data ++ '.' :: s2.data⟩ = .ok [n1, n2, 0] ∧
      Parse "2" = .ok (New 2 0 0 []) :=
  ⟨parseNumberString_one h1 hn1 hd1,
    parseNumberString_two h1 h2 hn1 hn2 hd1 hd2, rfl⟩

/-- Witness for claim C7 at the inputs named by the claim. -/
theorem C7_witness :
    parseNumberString "5" = .ok [5, 0, 0] ∧
      parseNumberString "5.2" = .ok [5, 2, 0] ∧
      Parse "2" = .ok (New 2 0 0 []) := by
  have h := C7_defaults "5" "2" 5 2 rfl rfl (by omega) (by omega) (by decide) (by decide)
  refine ⟨h.1, ?_, h.2.2⟩
  have h2 := h.2.1
  rw [show ("5.2" : String) = ⟨"5".data ++ '.' :: "2".data⟩ from rfl]
  exact h2

/-- Claim C6: Parse fails (with the single error kind IllegalFormat)
exactly when the numeric segment, the part of the input before the
first "-" of the part before the first "+", splits on "." into more
than three components, or some component fails integer parsing, or
some component parses to a negative integer; every other input
parses successfully. -/
theorem C6_error_characterization (s : String) :
    Parse s = .error VError.IllegalFormat ↔ parseErrCond s := by
  obtain ⟨n, p, m, hsplit, hn⟩ := splitVersionString_ok s
  rw [Parse_eq s n p m hsplit]
  cases hpn : parseNumberString n with
  | error e =>
    cases e
    simp only []
    constructor
    · intro _
      have hcond := (parseNumberString_error_iff n).mp hpn
      rw [hn] at hcond
      exact hcond
    · intro _
      trivial
  | ok nums =>
    obtain ⟨a, b, c, rfl⟩ := parseNumberString_ok_shape hpn
    simp only []
    constructor
    · intro h
      cases h
    · intro hcond
      have herr := (parseNumberString_error_iff n).mpr (by rw [hn]; exact hcond)
      rw [hpn] at herr
      cases herr

/-- Claim C10: the canonical rendering of any constructed version is
always re-parseable.  For every Go-representable integer triple and
every list of raw identifier tokens, Parse of the rendered string
succeeds (never returns IllegalFormat), even when some identifiers
sanitize to the empty string. -/
theorem C10_render_reparse (ma mi pa : Int) (ids : List String)
    (hma : ma ≤ maxInt64) (hmi : mi ≤ maxInt64) (hpa : pa ≤ maxInt64) :
    ∃ w, Parse (vString (New ma mi pa ids)) = .ok w := by
  have h0 : 0 ≤ (New ma mi pa ids).major := New_major_nonneg ma mi pa ids
  have h1 : 0 ≤ (New ma mi pa ids).minor := New_minor_nonneg ma mi pa ids
  have h2 : 0 ≤ (New ma mi pa ids).patch := New_patch_nonneg ma mi pa ids
  have h0' : (New ma mi pa ids).major ≤ maxInt64 := clamp_le_max hma
  have h1' : (New ma mi pa ids).minor ≤ maxInt64 := clamp_le_max hmi
  have h2' : (New ma mi pa ids).patch ≤ maxInt64 := clamp_le_max hpa
  have hsplit := splitVersionString_vString (New ma mi pa ids) h0 h1 h2 New_pre_alpha
  have hp := Parse_eq _ _ _ _ hsplit
  rw [parseNumberString_numChars _ h0 h0' h1 h1' h2 h2'] at hp
  exact ⟨_, hp⟩

/-- Witness for claim C10 at a concrete version with a negative number
and an identifier that sanitizes to the empty string. -/
theorem C10_witness :
    ∃ w, Parse (vString (New (-7) 0 0 ["!", "+", "x"])) = .ok w :=
  C10_render_reparse (-7) 0 0 ["!", "+", "x"] (by decide) (by decide) (by decide)

/-- Claim C5, counterexample: the round trip is not the identity on
every construction.  The token "!" sanitizes to the empty pre-release
identifier; the rendered string "1.0.0-" re-parses with an empty
pre-release list, not the original singleton empty identifier. -/
theorem C5_counterexample :
    Parse (vString (New 1 0 0 ["!"])) = .ok (New 1 0 0 ([] : List String)) ∧
      New 1 0 0 ([] : List String) ≠ New 1 0 0 ["!"] :=
  ⟨rfl, by decide⟩

/-- Claim C5 (amended): for every non-negative Go-representable triple
and every token list whose constructed pre-release and metadata
sequences are not the singleton empty identifier, parsing the rendered
string returns exactly the constructed version. -/
theorem C5_roundtrip_amended (ma mi pa : Int) (ids : List String)
    (hma0 : 0 ≤ ma) (hma : ma ≤ maxInt64)
    (hmi0 : 0 ≤ mi) (hmi : mi ≤ maxInt64)
    (hpa0 : 0 ≤ pa) (hpa : pa ≤ maxInt64)
    (hpre1 : (New ma mi pa ids).preRelease ≠ [""])
    (hmd1 : (New ma mi pa ids).metadata ≠ [""]) :
    Parse (vString (New ma mi pa ids)) = .ok (New ma mi pa ids) := by
  have h0 : 0 ≤ (New ma mi pa ids).major := New_major_nonneg ma mi pa ids
  have h1 : 0 ≤ (New ma mi pa ids).minor := New_minor_nonneg ma mi pa ids
  have h2 : 0 ≤ (New ma mi pa ids).patch := New_patch_nonneg ma mi pa ids
  have h0' : (New ma mi pa ids).major ≤ maxInt64 := clamp_le_max hma
  have h1' : (New ma mi pa ids).minor ≤ maxInt64 := clamp_le_max hmi
  have h2' : (New ma mi pa ids).patch ≤ maxInt64 := clamp_le_max hpa
  have halpha := @New_pre_alpha ma mi pa ids
  have halphamd := @New_md_alpha ma mi pa ids
  have hnum := parseNumberString_numChars (New ma mi pa ids) h0 h0' h1 h1' h2 h2'
  have hsplit := splitVersionString_vString (New ma mi pa ids) h0 h1 h2 halpha
  have hmeta_pre : ∀ x ∈ (New ma mi pa ids).preRelease, ¬ x = Metadata :=
    fun x hx => alpha_ne_meta (halpha x hx)
  have hidem_pre : ∀ x ∈ (New ma mi pa ids).preRelease, validID x true = x :=
    pre_valid_idem
  have hidem_md : ∀ x ∈ (New ma mi pa ids).metadata, validID x false = x :=
    md_valid_idem
  have heta : New ma mi pa ids = ⟨(New ma mi pa ids).major, (New ma mi pa ids).minor,
      (New ma mi pa ids).patch, (New ma mi pa ids).preRelease,
      (New ma mi pa ids).metadata⟩ := rfl
  by_cases hpe : (New ma mi pa ids).preRelease = []
  · rw [if_neg (by simp [hpe] : ¬ (New ma mi pa ids).preRelease.length > 0)] at hsplit
    by_cases hme : (New ma mi pa ids).metadata = []
    · rw [if_neg (by simp [hme] : ¬ (New ma mi pa ids).metadata.length > 0)] at hsplit
      refine Parse_finish "" "" hsplit hnum ?_
      show New (New ma mi pa ids).major (New ma mi pa ids).minor
        (New ma mi pa ids).patch ([] : List String) = New ma mi pa ids
      rw [New_canonical h0 h1 h2
        (show collectPrmds ([] : List String) = ([], []) from rfl)]
      conv_rhs => rw [heta, hpe, hme]
    · rw [if_pos (List.length_pos.mpr hme)] at hsplit
      have hMne : (⟨joinCh '.' ((New ma mi pa ids).metadata.map String.data)⟩ : String) ≠ "" :=
        join_ne_empty hme hmd1
      have hSM : (splitCh '.'
          ((⟨joinCh '.' ((New ma mi pa ids).metadata.map String.data)⟩ : String)).data).map
            (fun cs => (⟨cs⟩ : String)) = (New ma mi pa ids).metadata := by
        rw [show ((⟨joinCh '.' ((New ma mi pa ids).metadata.map String.data)⟩ :
          String)).data = joinCh '.' ((New ma mi pa ids).metadata.map String.data) from rfl]
        rw [splitCh_join (by simpa using hme) (join_alpha_nodot halphamd), map_mk_data]
      refine Parse_finish "" ⟨joinCh '.' ((New ma mi pa ids).metadata.map String.data)⟩
        hsplit hnum ?_
      show New (New ma mi pa ids).major (New ma mi pa ids).minor (New ma mi pa ids).patch
        (if (⟨joinCh '.' ((New ma mi pa ids).metadata.map String.data)⟩ : String) ≠ "" then
          ([] : List String) ++ Metadata :: (splitCh '.'
            ((⟨joinCh '.' ((New ma mi pa ids).metadata.map String.data)⟩ : String)).data).map
              (fun cs => (⟨cs⟩ : String))
        else []) = New ma mi pa ids
      rw [if_pos hMne, hSM]
      have hc : collectPrmds (([] : List String) ++ Metadata :: (New ma mi pa ids).metadata) =
          ([], (New ma mi pa ids).metadata) :=
        collectPrmds_with_meta [] (New ma mi pa ids).metadata (by simp) (by simp) hidem_md
      rw [New_canonical h0 h1 h2 hc]
      conv_rhs => rw [heta, hpe]
  · rw [if_pos (List.length_pos.mpr hpe)] at hsplit
    have hPne : (⟨joinCh '.' ((New ma mi pa ids).preRelease.map String.data)⟩ : String) ≠ "" :=
      join_ne_empty hpe hpre1
    have hSP : (splitCh '.'
        ((⟨joinCh '.' ((New ma mi pa ids).preRelease.map String.data)⟩ : String)).data).map
          (fun cs => (⟨cs⟩ : String)) = (New ma mi pa ids).preRelease := by
      rw [show ((⟨joinCh '.' ((New ma mi pa ids).preRelease.map String.data)⟩ :
        String)).data = joinCh '.' ((New ma mi pa ids).preRelease.map String.data) from rfl]
      rw [splitCh_join (by simpa using hpe) (join_alpha_nodot halpha), map_mk_data]
    by_cases hme : (New ma mi pa ids).metadata = []
    · rw [if_neg (by simp [hme] : ¬ (New ma mi pa ids).metadata.length > 0)] at hsplit
      refine Parse_finish ⟨joinCh '.' ((New ma mi pa ids).preRelease.map String.data)⟩ ""
        hsplit hnum ?_
      show New (New ma mi pa ids).major (New ma mi pa ids).minor (New ma mi pa ids).patch
        (if (⟨joinCh '.' ((New ma mi pa ids).preRelease.map String.data)⟩ : String) ≠ "" then
          (splitCh '.'
            ((⟨joinCh '.' ((New ma mi pa ids).preRelease.map String.data)⟩ : String)).data).map
              (fun cs => (⟨cs⟩ : String))
        else []) = New ma mi pa ids
      rw [if_pos hPne, hSP]
      rw [New_canonical h0 h1 h2 (collectPrmds_no_meta _ hmeta_pre hidem_pre)]
      conv_rhs => rw [heta, hme]
    · rw [if_pos (List.length_pos.mpr hme)] at hsplit
      have hMne : (⟨joinCh '.' ((New ma mi pa ids).metadata.map String.data)⟩ : String) ≠ "" :=
        join_ne_empty hme hmd1
      have hSM : (splitCh '.'
          ((⟨joinCh '.' ((New ma mi pa ids).metadata.map String.data)⟩ : String)).data).map
            (fun cs => (⟨cs⟩ : String)) = (New ma mi pa ids).metadata := by
        rw [show ((⟨joinCh '.' ((New ma mi pa ids).metadata.map String.data)⟩ :
          String)).data = joinCh '.' ((New ma mi pa ids).metadata.map String.data) from rfl]
        rw [splitCh_join (by simpa using hme) (join_alpha_nodot halphamd), map_mk_data]
      refine Parse_finish ⟨joinCh '.' ((New ma mi pa ids).preRelease.map String.data)⟩
        ⟨joinCh '.' ((New ma mi pa ids).metadata.map String.data)⟩ hsplit hnum ?_
      show New (New ma mi pa ids).major (New ma mi pa ids).minor (New ma mi pa ids).patch
        (if (⟨joinCh '.' ((New ma mi pa ids).metadata.map String.data)⟩ : String) ≠ "" then
          (if (⟨joinCh '.' ((New ma mi pa ids).preRelease.map String.data)⟩ : String) ≠ "" then
            (splitCh '.'
              ((⟨joinCh '.' ((New ma mi pa ids).preRelease.map String.data)⟩ : String)).data).map
                (fun cs => (⟨cs⟩ : String))
          else []) ++ Metadata :: (splitCh '.'
            ((⟨joinCh '.' ((New ma mi pa ids).metadata.map String.data)⟩ : String)).data).map
              (fun cs => (⟨cs⟩ : String))
        else
          (if (⟨joinCh '.' ((New ma mi pa ids).preRelease.map String.data)⟩ : String) ≠ "" then
            (splitCh '.'
              ((⟨joinCh '.' ((New ma mi pa ids).preRelease.map String.data)⟩ : String)).data).map
                (fun cs => (⟨cs⟩ : String))
          else [])) = New ma mi pa ids
      rw [if_pos hMne, if_pos hPne, hSP, hSM]
      rw [New_canonical h0 h1 h2 (collectPrmds_with_meta _ _ hmeta_pre hidem_pre hidem_md)]

/-- Witness for the amended claim C5 at a concrete construction with
pre-release and metadata identifiers. -/
theorem C5_witness :
    Parse (vString (New 1 2 3 ["rc", "01", "+", "build", "7"])) =
      .ok (New 1 2 3 ["rc", "01", "+", "build", "7"]) :=
  C5_roundtrip_amended 1 2 3 ["rc", "01", "+", "build", "7"]
    (by decide) (by decide) (by decide) (by decide) (by decide) (by decide)
    (by decide) (by decide)

end GoVersion
